import Mathlib

/-!
Verification development for the deno-gfm Markdown renderer (`src/mod.ts`).

The TypeScript source is shallowly embedded: pure string manipulation is
modelled over `List Char`, JavaScript regular-expression operations are
modelled by explicit backtracking matchers, JS objects by association
lists, and mutable section arrays by explicit state passing.  External
collaborators (the `marked` lexer, `katex`, `sanitize-html`'s core engine,
the `@std/media-types` database, URL parsing) are taken as parameters of
the embedded functions, exactly at the call boundaries the source uses.
-/

namespace GfmSpec

/-! ### JavaScript character classes -/

/-- JS `\s` (whitespace, as used by `String.prototype.trim` and regex `\s`). -/
def jsWs (c : Char) : Bool :=
  c = ' ' || c = '\t' || c = '\n' || c = '\x0b' || c = '\x0c' || c = '\r' ||
  c = ' ' || c = ' ' || (' ' ≤ c && c ≤ ' ') || c = ' ' ||
  c = ' ' || c = ' ' || c = ' ' || c = '　' || c = '﻿'

/-- JS regex `.` without the `s` flag: any char except line terminators. -/
def jsDot (c : Char) : Bool :=
  !(c = '\n' || c = '\r' || c = ' ' || c = ' ')

/-- ASCII lowercasing of one character (JS `toLowerCase` on the
characters this code compares). -/
def charLower (c : Char) : Char :=
  if 'A' ≤ c && c ≤ 'Z' then Char.ofNat (c.toNat + 32) else c

/-- ASCII uppercasing of one character (JS `toUpperCase`). -/
def charUpper (c : Char) : Char :=
  if 'a' ≤ c && c ≤ 'z' then Char.ofNat (c.toNat - 32) else c

/-- JS `String.prototype.toLowerCase` (ASCII part). -/
def jsToLower (s : String) : String := ⟨s.data.map charLower⟩

/-! ### List-of-characters utilities (substring search, trim, collapse) -/

/-- Does `l` start with the pattern `p`? -/
def hasPrefixL : List Char → List Char → Bool
  | [], _ => true
  | _ :: _, [] => false
  | p :: ps, c :: cs => p = c && hasPrefixL ps cs

/-- Does `p` occur as a contiguous subsequence anywhere in `l`?
(JS `String.prototype.includes` / unanchored regex literal search.) -/
def subSeqAt (p : List Char) : List Char → Bool
  | [] => hasPrefixL p []
  | c :: cs => hasPrefixL p (c :: cs) || subSeqAt p cs

/-- First index at which pattern `p` occurs in `l` (JS `indexOf`). -/
def idxOf (p : List Char) : List Char → Option Nat
  | [] => if hasPrefixL p [] then some 0 else none
  | c :: cs =>
    if hasPrefixL p (c :: cs) then some 0
    else (idxOf p cs).map (· + 1)

/-- JS `String.prototype.includes`. -/
def containsSubstr (s pat : String) : Bool := subSeqAt pat.data s.data

/-- JS `String.prototype.trim`: drop leading and trailing whitespace. -/
def trimChars (l : List Char) : List Char :=
  ((l.dropWhile jsWs).reverse.dropWhile jsWs).reverse

/-- JS `trim` on strings. -/
def jsTrim (s : String) : String := ⟨trimChars s.data⟩

/-- Emit a pending newline run of length `n` as the JS replace
`/\n{3,}/g → "\n"` does: runs of three or more become one newline. -/
def emitRun (n : Nat) (rest : List Char) : List Char :=
  (if 3 ≤ n then ['\n'] else List.replicate n '\n') ++ rest

/-- Worker for `collapseNl`: `n` is the length of the newline run read so
far and not yet emitted. -/
def collapseGo : Nat → List Char → List Char
  | n, [] => emitRun n []
  | n, '\n' :: cs => collapseGo (n + 1) cs
  | n, c :: cs => emitRun n (c :: collapseGo 0 cs)

/-- JS `str.replace(/\n{3,}/g, "\n")`: every maximal run of three or more
newlines is replaced by a single newline. -/
def collapseNl (l : List Char) : List Char := collapseGo 0 l

/-- `collapseNl` on strings. -/
def collapseNlStr (s : String) : String := ⟨collapseNl s.data⟩

/-- The pattern "three consecutive newlines". -/
def nl3 : List Char := ['\n', '\n', '\n']

/-- Head of the list is a newline. -/
def headNl : List Char → Bool
  | '\n' :: _ => true
  | _ => false

/-! ### Association lists as JS objects -/

/-- JS property lookup on an object represented as an association list. -/
def jsLookup (m : List (String × α)) (k : String) : Option α :=
  (m.find? (fun kv => kv.1 = k)).map (·.2)

/-- JS property assignment: update the value in place if the key exists
(keeping key order), otherwise append the new key. -/
def jsSetKey (m : List (String × α)) (k : String) (v : α) : List (String × α) :=
  if m.any (fun kv => kv.1 = k) then
    m.map (fun kv => if kv.1 = k then (k, v) else kv)
  else m ++ [(k, v)]

/-- JS object spread `{...a, ...b}`: keys of `b` override keys of `a`. -/
def spreadMerge (a b : List (String × α)) : List (String × α) :=
  b.foldl (fun m kv => jsSetKey m kv.1 kv.2) a

/-! ### A small backtracking regex matcher

A matcher consumes a prefix of the input and returns the list of possible
remainders, in the priority order a JS regex engine would try them
(greedy quantifiers longest-first, alternatives in written order). -/

/-- The type of backtracking matchers. -/
def Matcher : Type := List Char → List (List Char)

/-- Match the empty string. -/
def mEps : Matcher := fun l => [l]

/-- Match one character satisfying `p`. -/
def mChar (p : Char → Bool) : Matcher := fun l =>
  match l with
  | [] => []
  | c :: cs => if p c then [cs] else []

/-- Match a literal string. -/
def mLit (s : String) : Matcher := fun l =>
  if hasPrefixL s.data l then [l.drop s.data.length] else []

/-- Sequencing. -/
def mSeq (a b : Matcher) : Matcher := fun l => (a l).flatMap b

/-- Alternation, first alternative preferred. -/
def mAlt (a b : Matcher) : Matcher := fun l => a l ++ b l

/-- Greedy `?`: try matching first. -/
def mOpt (a : Matcher) : Matcher := fun l => a l ++ [l]

/-- Greedy `p*` over a character class: all remainders, longest match
first. -/
def mStarChar (p : Char → Bool) : Matcher := fun l =>
  let k := (l.takeWhile p).length
  (List.range (k + 1)).map (fun i => l.drop (k - i))

/-- Greedy `p+` over a character class. -/
def mPlusChar (p : Char → Bool) : Matcher := mSeq (mChar p) (mStarChar p)

/-- `p{n}`: exactly `n` characters of a class. -/
def mRepChar (p : Char → Bool) : Nat → Matcher
  | 0 => mEps
  | n + 1 => mSeq (mChar p) (mRepChar p n)

/-! ### Youtube URL recognition (`isYoutubeVideo`, `youtubeLinkToIframe`)

Source regex (used identically in both functions):
`(?:https?:\/\/)?(?:www\.)?(?:youtube\.com\/(?:[^\/\n\s]+\/\S+\/|(?:v|e(?:mbed)?)\/|.*[?&]v=)|youtu\.be\/)([a-zA-Z0-9_-]{11})`
-/

/-- Regex class `[a-zA-Z0-9_-]` (the 11-character video id). -/
def ytIdChar (c : Char) : Bool :=
  ('a' ≤ c && c ≤ 'z') || ('A' ≤ c && c ≤ 'Z') || ('0' ≤ c && c ≤ '9') ||
  c = '_' || c = '-'

/-- Regex class `[^\/\n\s]`. -/
def notSlashNlWs (c : Char) : Bool := !(c = '/' || c = '\n' || jsWs c)

/-- `(?:https?:\/\/)?`. -/
def ytProtocol : Matcher :=
  mOpt (mSeq (mLit "http") (mSeq (mOpt (mLit "s")) (mLit "://")))

/-- The group after `youtube.com/`:
`(?:[^\/\n\s]+\/\S+\/|(?:v|e(?:mbed)?)\/|.*[?&]v=)`. -/
def ytPathGroup : Matcher :=
  mAlt
    (mSeq (mPlusChar notSlashNlWs)
      (mSeq (mLit "/") (mSeq (mPlusChar (fun c => !jsWs c)) (mLit "/"))))
    (mAlt
      (mSeq (mAlt (mLit "v") (mSeq (mLit "e") (mOpt (mLit "mbed")))) (mLit "/"))
      (mSeq (mStarChar jsDot) (mSeq (mChar (fun c => c = '?' || c = '&')) (mLit "v="))))

/-- Everything before the captured video id. -/
def ytHead : Matcher :=
  mSeq ytProtocol
    (mSeq (mOpt (mLit "www."))
      (mAlt (mSeq (mLit "youtube.com/") ytPathGroup) (mLit "youtu.be/")))

/-- The full Youtube regex. -/
def ytFull : Matcher := mSeq ytHead (mRepChar ytIdChar 11)

/-- `isYoutubeVideo(url)`: `youtubeRegex.test(url)`, i.e. an unanchored
match anywhere in the string. -/
def isYoutubeVideo (url : String) : Bool :=
  url.data.tails.any (fun l => !(ytFull l).isEmpty)

/-- Extract the first capture `match[1]`: leftmost match position, JS
backtracking priority within a position, then the 11 id characters. -/
def youtubeExtractId (url : String) : Option String :=
  url.data.tails.findSome? (fun l =>
    (ytHead l).findSome? (fun r =>
      if !(mRepChar ytIdChar 11 r).isEmpty then some ⟨r.take 11⟩ else none))

/-! ### Renderer rules: image, link, media transform, blockquote alerts -/

/-- JS truthiness of a possibly-absent string (`undefined`/`null`/`""` are
falsy). -/
def strTruthy : Option String → Bool
  | none => false
  | some s => !(s = "")

/-- JS `a || b` where `a` may be absent and `b` is a string. -/
def jsOrStr (a : Option String) (b : String) : String :=
  match a with
  | some s => if s = "" then b else s
  | none => b

/-- The `youtubeHandling` option: `"lite" | "link" | "embed"`. -/
inductive YoutubeHandling where
  | lite
  | link
  | embed
deriving DecidableEq, BEq, Repr

/-- The `<lite-youtube>` template literal from `youtubeLinkToIframe`. -/
def liteYoutubeHtml (videoId actualTitle : String) : String :=
  "<lite-youtube class=\"youtube-embed\" videoid=\"" ++ videoId ++
  "\" title=\"" ++ actualTitle ++
  "\" style=\"background-image: url(\x27https://i.ytimg.com/vi/" ++ videoId ++
  "/hqdefault.jpg\x27);\">\n        <a href=\"https://youtube.com/watch?v=" ++
  videoId ++ "\" class=\"lty-playbtn\" title=\"" ++ actualTitle ++
  "\">\n          <span class=\"lyt-visually-hidden\">" ++ actualTitle ++
  "</span>\n        </a>\n      </lite-youtube>"

/-- The `<iframe>` template literal from `youtubeLinkToIframe` (it ends
with a newline in the source). -/
def ytIframeHtml (videoId actualTitle : String) : String :=
  "<iframe width=\"560\" height=\"315\" src=\"https://www.youtube-nocookie.com/embed/" ++
  videoId ++ "\" class=\"youtube-embed\" title=\"" ++ actualTitle ++
  "\" frameborder=\"0\" allow=\"accelerometer; autoplay; clipboard-write; encrypted-media; gyroscope; picture-in-picture; web-share\" referrerpolicy=\"strict-origin-when-cross-origin\" loading=\"lazy\" allowfullscreen></iframe>\n"

/-- `youtubeLinkToIframe(youtubeUrl, lite, title)`. -/
def youtubeLinkToIframe (youtubeUrl : String) (lite : Bool)
    (title : Option String) : Option String :=
  match youtubeExtractId youtubeUrl with
  | some videoId =>
    let actualTitle := title.getD "Youtube Player"
    if lite then some (liteYoutubeHtml videoId actualTitle)
    else some (ytIframeHtml videoId actualTitle)
  | none => none

/-- `isLocalPath(src)`. -/
def isLocalPath (src : String) : Bool :=
  !hasPrefixL "http://".data src.data && !hasPrefixL "https://".data src.data

/-- `Renderer.image(src, title, alt)`.  `contentTypeExt` stands for the
external composition `(contentType(path.extname(src)) || "")` from
`@std/media-types`; the second component of the result is the
`lightYTEmbedImport` sticky flag after the call (first argument
`lightYTEmbedImport` is its value before the call). -/
def imageRule (contentTypeExt : String → String) (ytEmbed : YoutubeHandling)
    (lightYTEmbedImport : Bool) (src : String) (title : Option String)
    (alt : String) : String × Bool :=
  let youtube := isYoutubeVideo src
  if youtube && ytEmbed == YoutubeHandling.link then
    ("<a href=\"" ++ src ++ "\">" ++
      jsOrStr title (jsOrStr (some alt) "Youtube video") ++ "</a>",
      lightYTEmbedImport)
  else
    let youtubeIframe : Option String :=
      if youtube then
        youtubeLinkToIframe src (ytEmbed == YoutubeHandling.lite)
          (some (jsOrStr title alt))
      else none
    match youtubeIframe with
    | some ifr => (ifr, ytEmbed == YoutubeHandling.lite)
    | none =>
      if isLocalPath src && containsSubstr (contentTypeExt src) "video" then
        ("<video src=\"" ++ src ++ "\" alt=\"" ++ alt ++ "\" title=\"" ++
          title.getD "" ++ "\" controls />", lightYTEmbedImport)
      else
        ("<img src=\"" ++ src ++ "\" alt=\"" ++ alt ++ "\" title=\"" ++
          title.getD "" ++ "\" />", lightYTEmbedImport)

/-- The `title ? \` title="${title}"\` : ""` attribute of `Renderer.link`. -/
def mkTitleAttr (title : Option String) : String :=
  match title with
  | some t => if t = "" then "" else " title=\"" ++ t ++ "\""
  | none => ""

/-- `Renderer.link(href, title, text)`.  `resolveUrl href base` models
`new URL(href, base).href`, with `none` for a thrown `TypeError`. -/
def linkRule (resolveUrl : String → String → Option String) (noLinks : Bool)
    (baseUrl : Option String) (href : String) (title : Option String)
    (text : String) : String :=
  if noLinks then text
  else
    let titleAttr := mkTitleAttr title
    if hasPrefixL "#".data href.data then
      "<a href=\"" ++ href ++ "\"" ++ titleAttr ++ ">" ++ text ++ "</a>"
    else
      let href :=
        match baseUrl with
        | some b => if b = "" then href else (resolveUrl href b).getD href
        | none => href
      "<a href=\"" ++ href ++ "\"" ++ titleAttr ++
        " rel=\"noopener noreferrer\">" ++ text ++ "</a>"

/-- The sanitizer tag-transform `transformMedia(tagName, attribs)` from
`render`, parameterized by the URL resolver and the (already defaulted)
`opts.mediaBaseUrl`. -/
def transformMedia (resolveUrl : String → String → Option String)
    (mediaBaseUrl : Option String) (tagName : String)
    (attribs : List (String × String)) : String × List (String × String) :=
  match mediaBaseUrl, jsLookup attribs "src" with
  | some base, some src =>
    if base = "" || src = "" then (tagName, attribs)
    else
      match resolveUrl src base with
      | some resolved => (tagName, jsSetKey attribs "src" resolved)
      | none => (tagName, attribs.filter (fun kv => !(kv.1 = "src")))
  | _, _ => (tagName, attribs)

/-- The fixed list of admonition markers. -/
def alerts : List String :=
  ["[!note]", "[!tip]", "[!important]", "[!warning]", "[!caution]"]

/-- `detectAlert(text)`: a `forEach` over `alerts` overwriting `result`
whenever the lowercased text contains the marker. -/
def detectAlert (text : String) : Option String :=
  alerts.foldl
    (fun result alert =>
      if containsSubstr (jsToLower text) alert then some alert else result)
    none

/-- `convertAlert(alert)`: capitalize the marker word. -/
def convertAlert (alert : String) : String :=
  let alertText : List Char := (alert.data.drop 2).dropLast
  (match alertText.head? with
   | some c => String.singleton (charUpper c)
   | none => "undefined") ++ jsToLower ⟨alertText.drop 1⟩

/-- `cutStr(str, i, j)`: `(str.substring(0, i) + str.substring(j)).trim()`. -/
def cutStr (str : String) (i j : Nat) : String :=
  jsTrim ⟨str.data.take i ++ str.data.drop j⟩

/-- `Renderer.blockquote(text)`; `superBlockquote` is the inherited marked
renderer (external). -/
def blockquoteRule (superBlockquote : String → String) (alertsEnabled : Bool)
    (text : String) : String :=
  match detectAlert text with
  | some alertType =>
    if !alertsEnabled then
      let i := (idxOf alertType.data (jsToLower text).data).getD 0
      "<p><b>" ++ convertAlert alertType ++ ": </b></p>" ++
        cutStr text i (i + alertType.length) ++ "</p>"
    else superBlockquote text
  | none => superBlockquote text

/-! ### Math preprocessor (`mathify`)

`BLOCK_MATH_REGEXP = /\$\$\s(.+?)\s\$\$/g` and
`INLINE_MATH_REGEXP = /\s\$((?=\S).*?(?=\S))\$/g`, applied by
`String.prototype.replace` with a callback that falls back to the original
match when `katex.renderToString` throws. -/

/-- Detect the lazy closing `\s\$\$` of a block-math match at the head of
the input. -/
def closeDollars : List Char → Option (Char × List Char)
  | w :: b1 :: b2 :: rest =>
    if jsWs w && b1 = '$' && b2 = '$' then some (w, rest) else none
  | _ => none

theorem closeDollars_reconstruct {l : List Char} {w : Char} {rest : List Char}
    (h : closeDollars l = some (w, rest)) :
    l = w :: '$' :: '$' :: rest ∧ jsWs w = true := by
  match l with
  | [] => simp [closeDollars] at h
  | [a] => simp [closeDollars] at h
  | [a, b] => simp [closeDollars] at h
  | a :: b :: c :: r =>
    simp only [closeDollars] at h
    by_cases hc : jsWs a && b = '$' && c = '$'
    · rw [if_pos hc] at h
      obtain ⟨h1, h2⟩ := Prod.mk.injEq .. ▸ Option.some_inj.mp h
      simp only [Bool.and_eq_true, decide_eq_true_eq] at hc
      subst h1 h2
      exact ⟨by rw [hc.1.2, hc.2], hc.1.1⟩
    · rw [if_neg hc] at h
      exact absurd h (by simp)

/-- Lazy body of a block-math match: given the characters after `$$` and
the opening `\s` character, find the shortest `(.+?)` (one or more
non-newline characters) followed by `\s\$\$`.  Returns the body, the
closing whitespace character, and the rest of the input. -/
def blockBody : List Char → Option (List Char × Char × List Char)
  | [] => none
  | c :: cs =>
    if jsDot c then
      match closeDollars cs with
      | some (w, rest) => some ([c], w, rest)
      | none => (blockBody cs).map (fun pr => (c :: pr.1, pr.2.1, pr.2.2))
    else none

theorem blockBody_reconstruct :
    ∀ {l p1 w rest}, blockBody l = some (p1, w, rest) →
      l = p1 ++ w :: '$' :: '$' :: rest := by
  intro l
  induction l with
  | nil => intro p1 w rest h; simp [blockBody] at h
  | cons c cs ih =>
    intro p1 w rest h
    simp only [blockBody] at h
    by_cases hd : jsDot c
    · rw [if_pos hd] at h
      cases hcl : closeDollars cs with
      | some pr =>
        obtain ⟨q1, q2⟩ := pr
        rw [hcl] at h
        obtain ⟨hw, _⟩ := closeDollars_reconstruct hcl
        simp only [Option.some.injEq, Prod.mk.injEq] at h
        obtain ⟨h1, h2a, h2b⟩ := h
        subst h1 h2a h2b
        simp [hw]
      | none =>
        rw [hcl] at h
        cases hbb : blockBody cs with
        | none => rw [hbb] at h; simp at h
        | some pr =>
          obtain ⟨q1, q2, q3⟩ := pr
          rw [hbb] at h
          simp only [Option.map_some', Option.some.injEq, Prod.mk.injEq] at h
          obtain ⟨h1, h2a, h2b⟩ := h
          subst h1 h2a h2b
          have := ih hbb
          rw [List.cons_append, ← this]
    · rw [if_neg hd] at h
      exact absurd h (by simp)

theorem blockBody_rest_len {l p1 w rest}
    (h : blockBody l = some (p1, w, rest)) :
    rest.length + 3 ≤ l.length := by
  have := blockBody_reconstruct h
  subst this
  simp only [List.length_append, List.length_cons]
  omega

/-- Lazy body of an inline-math match: given the characters after `\s\$`,
find the shortest `.*?` (non-newline characters) up to the closing `$`.
(The trailing `(?=\S)` lookahead is satisfied by the closing `$` itself.) -/
def inlineBody : List Char → Option (List Char × List Char)
  | [] => none
  | c :: cs =>
    if c = '$' then some ([], cs)
    else if jsDot c then (inlineBody cs).map (fun pr => (c :: pr.1, pr.2))
    else none

theorem inlineBody_reconstruct :
    ∀ {l p1 rest}, inlineBody l = some (p1, rest) →
      l = p1 ++ '$' :: rest := by
  intro l
  induction l with
  | nil => intro p1 rest h; simp [inlineBody] at h
  | cons c cs ih =>
    intro p1 rest h
    simp only [inlineBody] at h
    by_cases hc : c = '$'
    · rw [if_pos hc] at h
      simp only [Option.some.injEq, Prod.mk.injEq] at h
      obtain ⟨h1, h2⟩ := h
      subst h1 h2 hc
      simp
    · rw [if_neg hc] at h
      by_cases hd : jsDot c
      · rw [if_pos hd] at h
        cases hib : inlineBody cs with
        | none => rw [hib] at h; simp at h
        | some pr =>
          obtain ⟨q1, q2⟩ := pr
          rw [hib] at h
          simp only [Option.map_some', Option.some.injEq, Prod.mk.injEq] at h
          obtain ⟨h1, h2⟩ := h
          subst h1 h2
          have := ih hib
          rw [List.cons_append, ← this]
      · rw [if_neg hd] at h
        exact absurd h (by simp)

theorem inlineBody_rest_len {l p1 rest}
    (h : inlineBody l = some (p1, rest)) :
    rest.length + 1 ≤ l.length := by
  have := inlineBody_reconstruct h
  subst this
  simp only [List.length_append, List.length_cons]
  omega

/-- Attempt a block-math match at the current scan position: the position
must start with `$$`, one whitespace, then a lazy body.  Returns the
captured group, the full matched text, and the rest of the input. -/
def blockMatchAt (l : List Char) : Option (List Char × List Char × List Char) :=
  match l with
  | a :: b :: w :: cs =>
    if a = '$' && b = '$' && jsWs w then
      match blockBody cs with
      | some (p1, w2, rest) =>
        some (p1, a :: b :: w :: (p1 ++ w2 :: '$' :: '$' :: []), rest)
      | none => none
    else none
  | _ => none

theorem blockMatchAt_some {l p1 fm rest}
    (h : blockMatchAt l = some (p1, fm, rest)) :
    l = fm ++ rest ∧ rest.length + 6 ≤ l.length := by
  match l with
  | [] => simp [blockMatchAt] at h
  | [a] => simp [blockMatchAt] at h
  | [a, b] => simp [blockMatchAt] at h
  | a :: b :: w :: cs =>
    simp only [blockMatchAt] at h
    by_cases hc : a = '$' && b = '$' && jsWs w
    · rw [if_pos hc] at h
      cases hbb : blockBody cs with
      | none => rw [hbb] at h; simp at h
      | some pr =>
        obtain ⟨q1, q2, q3⟩ := pr
        rw [hbb] at h
        simp only [Option.some.injEq, Prod.mk.injEq] at h
        obtain ⟨h1, h2, h3⟩ := h
        subst h1 h2 h3
        have hrec := blockBody_reconstruct hbb
        have hlen := blockBody_rest_len hbb
        subst hrec
        constructor
        · simp
        · simp only [List.length_cons, List.length_append, List.length_cons] at *
          omega
    · rw [if_neg hc] at h
      exact absurd h (by simp)

/-- The leading `(?=\S)` lookahead at the start of the captured group:
the character there (the closing `$` when the group is empty) must be
non-whitespace. -/
def leadLookahead (p1 : List Char) : Bool :=
  match p1.head? with
  | some c0 => !jsWs c0
  | none => true

/-- Attempt an inline-math match at the current scan position: one
whitespace, `$`, the leading `(?=\S)` lookahead, then a lazy body up to
the closing `$`. -/
def inlineMatchAt (l : List Char) : Option (List Char × List Char × List Char) :=
  match l with
  | w :: d :: cs =>
    if jsWs w && d = '$' then
      match inlineBody cs with
      | some (p1, rest) =>
        if leadLookahead p1 then some (p1, w :: d :: (p1 ++ ['$']), rest)
        else none
      | none => none
    else none
  | _ => none

theorem inlineMatchAt_some {l p1 fm rest}
    (h : inlineMatchAt l = some (p1, fm, rest)) :
    l = fm ++ rest ∧ rest.length + 3 ≤ l.length := by
  match l with
  | [] => simp [inlineMatchAt] at h
  | [a] => simp [inlineMatchAt] at h
  | w :: d :: cs =>
    simp only [inlineMatchAt] at h
    by_cases hc : jsWs w && d = '$'
    · rw [if_pos hc] at h
      cases hib : inlineBody cs with
      | none => rw [hib] at h; simp at h
      | some pr =>
        obtain ⟨q1, q2⟩ := pr
        rw [hib] at h
        by_cases hla : leadLookahead q1
        · simp only [hla, if_true, Option.some.injEq, Prod.mk.injEq] at h
          obtain ⟨h1, h2, h3⟩ := h
          subst h1 h2 h3
          have hrec := inlineBody_reconstruct hib
          subst hrec
          constructor
          · simp
          · simp only [List.length_cons, List.length_append, List.length_cons] at *
            omega
        · simp [hla] at h
    · rw [if_neg hc] at h
      exact absurd h (by simp)

/-- The block-math pass of `mathify`: a left-to-right global regex
replace where `kat s` models `katex.renderToString(s, { displayMode:
true })` (`none` when it throws); on failure the original match is kept.
The first argument counts characters of the current match still to be
skipped (the replacement was already emitted), which makes the scan
structurally recursive. -/
def replaceBlocks (kat : String → Option String) :
    Nat → List Char → List Char
  | k + 1, _ :: cs => replaceBlocks kat k cs
  | _ + 1, [] => []
  | 0, [] => []
  | 0, c :: cs =>
    match blockMatchAt (c :: cs) with
    | some (p1, fm, _) =>
      (match kat (jsTrim ⟨p1⟩) with
       | some out => out.data
       | none => fm) ++ replaceBlocks kat (fm.length - 1) cs
    | none => c :: replaceBlocks kat 0 cs

/-- The inline-math pass of `mathify`: `kat s` models
`katex.renderToString(s, { displayMode: false })`; a successful
replacement is `" " + rendered`, a failure keeps the original match. -/
def replaceInline (kat : String → Option String) :
    Nat → List Char → List Char
  | k + 1, _ :: cs => replaceInline kat k cs
  | _ + 1, [] => []
  | 0, [] => []
  | 0, c :: cs =>
    match inlineMatchAt (c :: cs) with
    | some (p1, fm, _) =>
      (match kat ⟨p1⟩ with
       | some out => ' ' :: out.data
       | none => fm) ++ replaceInline kat (fm.length - 1) cs
    | none => c :: replaceInline kat 0 cs

/-- `mathify(markdown)`: the block pass, then the inline pass over its
result. -/
def mathify (katDisplay katInline : String → Option String)
    (markdown : String) : String :=
  ⟨replaceInline katInline 0 (replaceBlocks katDisplay 0 markdown.data)⟩

theorem replaceBlocks_skip (kat : String → Option String) :
    ∀ (k : Nat) (l : List Char),
      replaceBlocks kat k l = replaceBlocks kat 0 (l.drop k) := by
  intro k
  induction k with
  | zero => intro l; rfl
  | succ m ih =>
    intro l
    cases l with
    | nil => rfl
    | cons c cs =>
      show replaceBlocks kat m cs = _
      rw [ih cs]
      rfl

theorem replaceInline_skip (kat : String → Option String) :
    ∀ (k : Nat) (l : List Char),
      replaceInline kat k l = replaceInline kat 0 (l.drop k) := by
  intro k
  induction k with
  | zero => intro l; rfl
  | succ m ih =>
    intro l
    cases l with
    | nil => rfl
    | cons c cs =>
      show replaceInline kat m cs = _
      rw [ih cs]
      rfl

theorem cons_match_tail {c : Char} {cs fm rest : List Char}
    (h : c :: cs = fm ++ rest) (hfm : fm ≠ []) :
    cs.drop (fm.length - 1) = rest := by
  match fm, hfm with
  | f0 :: fm', _ =>
    have hcs : cs = fm' ++ rest := by
      rw [List.cons_append] at h
      exact (List.cons.injEq .. ▸ h).2
    rw [hcs]
    simp

theorem replaceBlocks_none_bounded :
    ∀ (n : Nat) (l : List Char), l.length ≤ n →
      replaceBlocks (fun _ => none) 0 l = l := by
  intro n
  induction n with
  | zero =>
    intro l hl
    cases l with
    | nil => rfl
    | cons c cs => simp at hl
  | succ m ih =>
    intro l hl
    cases l with
    | nil => rfl
    | cons c cs =>
      cases hm : blockMatchAt (c :: cs) with
      | none =>
        show (match blockMatchAt (c :: cs) with
          | some (p1, fm, _) => _ ++ replaceBlocks _ (fm.length - 1) cs
          | none => c :: replaceBlocks (fun _ => none) 0 cs) = c :: cs
        rw [hm, ih cs (by simp at hl ⊢; omega)]
      | some pr =>
        obtain ⟨p1, fm, rest⟩ := pr
        obtain ⟨hrec, hlen⟩ := blockMatchAt_some hm
        have hfm : fm ≠ [] := by
          intro he
          rw [he, List.nil_append] at hrec
          rw [hrec] at hlen
          omega
        show (match blockMatchAt (c :: cs) with
          | some (p1, fm, _) => (match (none : Option String) with
              | some out => out.data
              | none => fm) ++ replaceBlocks (fun _ => none) (fm.length - 1) cs
          | none => c :: replaceBlocks (fun _ => none) 0 cs) = c :: cs
        rw [hm]
        show fm ++ replaceBlocks (fun _ => none) (fm.length - 1) cs = c :: cs
        rw [replaceBlocks_skip, cons_match_tail hrec hfm,
          ih rest (by simp at hlen hl ⊢; omega)]
        exact hrec.symm

theorem replaceBlocks_none (l : List Char) :
    replaceBlocks (fun _ => none) 0 l = l :=
  replaceBlocks_none_bounded l.length l (Nat.le_refl _)

theorem replaceInline_none_bounded :
    ∀ (n : Nat) (l : List Char), l.length ≤ n →
      replaceInline (fun _ => none) 0 l = l := by
  intro n
  induction n with
  | zero =>
    intro l hl
    cases l with
    | nil => rfl
    | cons c cs => simp at hl
  | succ m ih =>
    intro l hl
    cases l with
    | nil => rfl
    | cons c cs =>
      cases hm : inlineMatchAt (c :: cs) with
      | none =>
        show (match inlineMatchAt (c :: cs) with
          | some (p1, fm, _) => _ ++ replaceInline _ (fm.length - 1) cs
          | none => c :: replaceInline (fun _ => none) 0 cs) = c :: cs
        rw [hm, ih cs (by simp at hl ⊢; omega)]
      | some pr =>
        obtain ⟨p1, fm, rest⟩ := pr
        obtain ⟨hrec, hlen⟩ := inlineMatchAt_some hm
        have hfm : fm ≠ [] := by
          intro he
          rw [he, List.nil_append] at hrec
          rw [hrec] at hlen
          omega
        show (match inlineMatchAt (c :: cs) with
          | some (p1, fm, _) => (match (none : Option String) with
              | some out => ' ' :: out.data
              | none => fm) ++ replaceInline (fun _ => none) (fm.length - 1) cs
          | none => c :: replaceInline (fun _ => none) 0 cs) = c :: cs
        rw [hm]
        show fm ++ replaceInline (fun _ => none) (fm.length - 1) cs = c :: cs
        rw [replaceInline_skip, cons_match_tail hrec hfm,
          ih rest (by simp at hlen hl ⊢; omega)]
        exact hrec.symm

theorem replaceInline_none (l : List Char) :
    replaceInline (fun _ => none) 0 l = l :=
  replaceInline_none_bounded l.length l (Nat.le_refl _)

theorem mathify_all_fail (markdown : String) :
    mathify (fun _ => none) (fun _ => none) markdown = markdown := by
  rw [mathify, replaceBlocks_none, replaceInline_none]

/-! ### Section stripper (`stripTokens`, `stripSplitBySections`, `strip`)

The token tree is the output of the external `marked` lexer; the inductive
`Tok` mirrors exactly the token kinds and child structure that
`stripTokens` inspects.  A table cell is its token list; `text` tokens may
or may not carry child tokens (in JS, `"tokens" in token && token.tokens`;
an empty child array is truthy).  `sections` and the current index `index`
are passed explicitly instead of being mutated. -/

/-- The `MarkdownSections` interface. -/
structure MarkdownSections where
  header : String
  depth : Nat
  content : String
deriving DecidableEq, Repr

/-- Marked tokens, restricted to the structure `stripTokens` consumes. -/
inductive Tok where
  | space (raw : String)
  | code (lang : Option String) (text : String)
  | heading (depth : Nat) (tokens : List Tok)
  | table (header : List (List Tok)) (rows : List (List (List Tok)))
  | hr
  | blockquote (tokens : List Tok)
  | list (items : List Tok)
  | listItem (tokens : List Tok)
  | paragraph (tokens : List Tok)
  | html (text : String)
  | text (tokens : Option (List Tok)) (raw : String)
  | def_
  | escape
  | link (tokens : List Tok)
  | image (title : Option String) (text : String)
  | strong (tokens : List Tok)
  | em (tokens : List Tok)
  | codespan (text : String)
  | br
  | del (tokens : List Tok)
deriving Repr

/-- Replace the element at position `i` (no-op when out of range), the
effect of a JS assignment `sections[i] = f(sections[i])`. -/
def modifyIdx (f : α → α) : Nat → List α → List α
  | _, [] => []
  | 0, x :: xs => f x :: xs
  | n + 1, x :: xs => x :: modifyIdx f n xs

/-- `sections[index][header ? "header" : "content"] += s`. -/
def appendAt (secs : List MarkdownSections) (idx : Nat) (hdr : Bool)
    (s : String) : List MarkdownSections :=
  modifyIdx
    (fun sec =>
      if hdr then { sec with header := sec.header ++ s }
      else { sec with content := sec.content ++ s })
    idx secs

/-- Finalization applied to the current section when a heading token is
encountered: trim `header` and `content` and collapse runs of 3+ newlines
to a single newline. -/
def finalizeSection (sec : MarkdownSections) : MarkdownSections :=
  { sec with
    header := collapseNlStr (jsTrim sec.header)
    content := collapseNlStr (jsTrim sec.content) }

mutual

/-- The `for (const token of tokens)` loop of `stripTokens`, carrying the
local `index` variable. -/
def stripToksGo (sh : String → String) :
    List Tok → List MarkdownSections → Nat → Bool → List MarkdownSections
  | [], secs, _, _ => secs
  | t :: ts, secs, idx, hdr =>
    let st := stripTok sh t secs idx hdr
    stripToksGo sh ts st.1 st.2 hdr
termination_by ts => (sizeOf ts, 1)

/-- One iteration of the `stripTokens` loop on token `t`: the heading
branch (finalize current section, push a new one, bump `index`), then the
generic recursion into child tokens (with the header selector set to
"this token is a heading"), then the per-kind `switch`.  Returns the new
sections and the new value of the local `index`. -/
def stripTok (sh : String → String) :
    Tok → List MarkdownSections → Nat → Bool →
      List MarkdownSections × Nat
  | t, secs, idx, hdr =>
    let pre : List MarkdownSections × Nat :=
      match t with
      | .heading d _ =>
        (modifyIdx finalizeSection idx secs ++ [⟨"", d, ""⟩], idx + 1)
      | _ => (secs, idx)
    let secs1 := pre.1
    let idx1 := pre.2
    let secs2 :=
      match t with
      | .heading _ ch => stripTokens sh ch secs1 true
      | .blockquote ch => stripTokens sh ch secs1 false
      | .listItem ch => stripTokens sh ch secs1 false
      | .paragraph ch => stripTokens sh ch secs1 false
      | .link ch => stripTokens sh ch secs1 false
      | .strong ch => stripTokens sh ch secs1 false
      | .em ch => stripTokens sh ch secs1 false
      | .del ch => stripTokens sh ch secs1 false
      | .text (some ch) _ => stripTokens sh ch secs1 false
      | _ => secs1
    let secs3 :=
      match t with
      | .space raw => appendAt secs2 idx1 hdr raw
      | .code lang text =>
        if lang = some "math" then secs2 else appendAt secs2 idx1 hdr text
      | .table hcells rows =>
        stripRowsGo sh rows
          (appendAt (stripCellsGo sh hcells secs2 idx1 hdr) idx1 hdr "\n")
          idx1 hdr
      | .list items => stripTokens sh items secs2 hdr
      | .listItem _ => appendAt secs2 idx1 hdr "\n"
      | .html text => appendAt secs2 idx1 hdr (jsTrim (sh text) ++ "\n\n")
      | .text none raw => appendAt secs2 idx1 hdr raw
      | .image title text =>
        appendAt secs2 idx1 hdr
          (match title with
           | some ti => if ti = "" then text else ti
           | none => text)
      | .codespan text => appendAt secs2 idx1 hdr text
      | _ => secs2
    (secs3, idx1)
termination_by t => (sizeOf t, 1)

/-- `stripTokens(tokens, sections, header)`: recomputes the local `index`
as `sections.length - 1` on entry. -/
def stripTokens (sh : String → String) (ts : List Tok)
    (secs : List MarkdownSections) (hdr : Bool) : List MarkdownSections :=
  stripToksGo sh ts secs (secs.length - 1) hdr
termination_by (sizeOf ts, 2)

/-- The table-cell loop: per cell, recurse then append a single space at
the (outer) current index. -/
def stripCellsGo (sh : String → String) :
    List (List Tok) → List MarkdownSections → Nat → Bool →
      List MarkdownSections
  | [], secs, _, _ => secs
  | cell :: cells, secs, idx, hdr =>
    stripCellsGo sh cells
      (appendAt (stripTokens sh cell secs hdr) idx hdr " ") idx hdr
termination_by cells => (sizeOf cells, 1)

/-- The table-row loop: per row, run the cell loop then append a newline. -/
def stripRowsGo (sh : String → String) :
    List (List (List Tok)) → List MarkdownSections → Nat → Bool →
      List MarkdownSections
  | [], secs, _, _ => secs
  | row :: rows, secs, idx, hdr =>
    stripRowsGo sh rows
      (appendAt (stripCellsGo sh row secs idx hdr) idx hdr "\n") idx hdr
termination_by rows => (sizeOf rows, 1)

end

/-- `stripSplitBySections(markdown, opts)`: the part downstream of the
external front end (emoji expansion, math-span removal and the `marked`
lexer produce the token list).  `sh` models the external
`sanitizeHtml(text, { allowedTags: [], allowedAttributes: {} })`
plain-text extraction used for `html` tokens. -/
def stripSplitBySections (sh : String → String) (tokens : List Tok) :
    List MarkdownSections :=
  stripTokens sh tokens [⟨"", 0, ""⟩] false

/-- `strip(markdown, opts)`: join the sections, trim, collapse newline
runs, and append a final newline. -/
def strip (sh : String → String) (tokens : List Tok) : String :=
  ⟨collapseNl (trimChars
      (String.intercalate "\n\n"
        ((stripSplitBySections sh tokens).map
          (fun sec => sec.header ++ "\n\n" ++ sec.content))).data)
    ++ ['\n']⟩

/-! ### Heading bookkeeping for the section splitter -/

mutual

/-- Depths of the heading tokens of one token, in the traversal order of
`stripTok`. -/
def depthsTok : Tok → List Nat
  | .heading d ch => d :: depthsToks ch
  | .table hcells rows => depthsCells hcells ++ depthsRows rows
  | .blockquote ch => depthsToks ch
  | .list items => depthsToks items
  | .listItem ch => depthsToks ch
  | .paragraph ch => depthsToks ch
  | .link ch => depthsToks ch
  | .strong ch => depthsToks ch
  | .em ch => depthsToks ch
  | .del ch => depthsToks ch
  | .text (some ch) _ => depthsToks ch
  | _ => []
termination_by t => (sizeOf t, 1)

/-- Depths of all heading tokens of a token list, in traversal order. -/
def depthsToks : List Tok → List Nat
  | [] => []
  | t :: ts => depthsTok t ++ depthsToks ts
termination_by ts => (sizeOf ts, 1)

/-- Depths of all heading tokens in a list of table cells. -/
def depthsCells : List (List Tok) → List Nat
  | [] => []
  | c :: cs => depthsToks c ++ depthsCells cs
termination_by cs => (sizeOf cs, 2)

/-- Depths of all heading tokens in a list of table rows. -/
def depthsRows : List (List (List Tok)) → List Nat
  | [] => []
  | r :: rs => depthsCells r ++ depthsRows rs
termination_by rs => (sizeOf rs, 1)

end

/-- The number of heading tokens a token list contains (every one of them
is encountered exactly once by `stripTokens`). -/
def headingCount (ts : List Tok) : Nat := (depthsToks ts).length

/-- The `depth` fields of a section list, in order. -/
def secDepths (secs : List MarkdownSections) : List Nat :=
  secs.map MarkdownSections.depth

/-- Per-constructor unfoldings of `depthsTok` (the definition uses a
catch-all arm, so its automatic equations are conditional). -/
theorem depthsTok_space (raw : String) : depthsTok (.space raw) = [] := by
  rw [depthsTok.eq_def]

theorem depthsTok_code (lang : Option String) (text : String) :
    depthsTok (.code lang text) = [] := by
  rw [depthsTok.eq_def]

theorem depthsTok_heading (d : Nat) (ch : List Tok) :
    depthsTok (.heading d ch) = d :: depthsToks ch := by
  rw [depthsTok.eq_def]

theorem depthsTok_table (hcells : List (List Tok))
    (rows : List (List (List Tok))) :
    depthsTok (.table hcells rows) = depthsCells hcells ++ depthsRows rows := by
  rw [depthsTok.eq_def]

theorem depthsTok_hr : depthsTok .hr = [] := by
  rw [depthsTok.eq_def]

theorem depthsTok_blockquote (ch : List Tok) :
    depthsTok (.blockquote ch) = depthsToks ch := by
  rw [depthsTok.eq_def]

theorem depthsTok_list (items : List Tok) :
    depthsTok (.list items) = depthsToks items := by
  rw [depthsTok.eq_def]

theorem depthsTok_listItem (ch : List Tok) :
    depthsTok (.listItem ch) = depthsToks ch := by
  rw [depthsTok.eq_def]

theorem depthsTok_paragraph (ch : List Tok) :
    depthsTok (.paragraph ch) = depthsToks ch := by
  rw [depthsTok.eq_def]

theorem depthsTok_html (text : String) : depthsTok (.html text) = [] := by
  rw [depthsTok.eq_def]

theorem depthsTok_textNone (raw : String) :
    depthsTok (.text none raw) = [] := by
  rw [depthsTok.eq_def]

theorem depthsTok_textSome (ch : List Tok) (raw : String) :
    depthsTok (.text (some ch) raw) = depthsToks ch := by
  rw [depthsTok.eq_def]

theorem depthsTok_def : depthsTok .def_ = [] := by
  rw [depthsTok.eq_def]

theorem depthsTok_escape : depthsTok .escape = [] := by
  rw [depthsTok.eq_def]

theorem depthsTok_link (ch : List Tok) :
    depthsTok (.link ch) = depthsToks ch := by
  rw [depthsTok.eq_def]

theorem depthsTok_image (title : Option String) (text : String) :
    depthsTok (.image title text) = [] := by
  rw [depthsTok.eq_def]

theorem depthsTok_strong (ch : List Tok) :
    depthsTok (.strong ch) = depthsToks ch := by
  rw [depthsTok.eq_def]

theorem depthsTok_em (ch : List Tok) :
    depthsTok (.em ch) = depthsToks ch := by
  rw [depthsTok.eq_def]

theorem depthsTok_codespan (text : String) :
    depthsTok (.codespan text) = [] := by
  rw [depthsTok.eq_def]

theorem depthsTok_br : depthsTok .br = [] := by
  rw [depthsTok.eq_def]

theorem depthsTok_del (ch : List Tok) :
    depthsTok (.del ch) = depthsToks ch := by
  rw [depthsTok.eq_def]

theorem map_modifyIdx {α β : Type _} {g : α → β} {f : α → α}
    (hf : ∀ x, g (f x) = g x) :
    ∀ (l : List α) (n : Nat), (modifyIdx f n l).map g = l.map g := by
  intro l
  induction l with
  | nil => intro n; cases n <;> rfl
  | cons x xs ih =>
    intro n
    cases n with
    | zero => simp [modifyIdx, hf]
    | succ m => simp [modifyIdx, ih]

theorem secDepths_appendAt (secs : List MarkdownSections) (idx : Nat)
    (hdr : Bool) (s : String) :
    secDepths (appendAt secs idx hdr s) = secDepths secs := by
  apply map_modifyIdx
  intro x
  by_cases h : hdr = true <;> simp [h]

theorem secDepths_finalizeAt (secs : List MarkdownSections) (idx : Nat) :
    secDepths (modifyIdx finalizeSection idx secs) = secDepths secs := by
  apply map_modifyIdx
  intro x
  rfl

mutual

theorem depths_stripToksGo (sh : String → String) :
    ∀ (ts : List Tok) (secs : List MarkdownSections) (idx : Nat) (hdr : Bool),
      secDepths (stripToksGo sh ts secs idx hdr) =
        secDepths secs ++ depthsToks ts
  | [], secs, idx, hdr => by
    rw [stripToksGo, depthsToks, List.append_nil]
  | t :: ts, secs, idx, hdr => by
    rw [stripToksGo]
    show secDepths (stripToksGo sh ts (stripTok sh t secs idx hdr).1
      (stripTok sh t secs idx hdr).2 hdr) = _
    rw [depths_stripToksGo sh ts _ _ hdr, depths_stripTok sh t secs idx hdr,
      depthsToks, List.append_assoc]
termination_by ts => (sizeOf ts, 1)

theorem depths_stripTok (sh : String → String) :
    ∀ (t : Tok) (secs : List MarkdownSections) (idx : Nat) (hdr : Bool),
      secDepths (stripTok sh t secs idx hdr).1 =
        secDepths secs ++ depthsTok t
  | .space raw, secs, idx, hdr => by
    rw [stripTok.eq_def]
    show secDepths (appendAt secs idx hdr raw) = _
    rw [secDepths_appendAt, depthsTok_space, List.append_nil]
  | .code lang text, secs, idx, hdr => by
    rw [stripTok.eq_def]
    show secDepths (if lang = some "math" then secs
      else appendAt secs idx hdr text) = _
    rw [depthsTok_code, List.append_nil]
    by_cases h : lang = some "math"
    · rw [if_pos h]
    · rw [if_neg h, secDepths_appendAt]
  | .heading d ch, secs, idx, hdr => by
    rw [stripTok.eq_def]
    show secDepths (stripTokens sh ch
      (modifyIdx finalizeSection idx secs ++ [⟨"", d, ""⟩]) true) = _
    rw [depths_stripTokens sh ch _ true, depthsTok_heading]
    unfold secDepths
    rw [List.map_append,
      map_modifyIdx (g := MarkdownSections.depth) (f := finalizeSection)
        (fun x => rfl)]
    simp
  | .table hcells rows, secs, idx, hdr => by
    rw [stripTok.eq_def]
    show secDepths (stripRowsGo sh rows
      (appendAt (stripCellsGo sh hcells secs idx hdr) idx hdr "\n")
      idx hdr) = _
    rw [depths_stripRowsGo sh rows _ idx hdr, secDepths_appendAt,
      depths_stripCellsGo sh hcells secs idx hdr, depthsTok_table,
      List.append_assoc]
  | .hr, secs, idx, hdr => by
    rw [stripTok.eq_def]
    show secDepths secs = _
    rw [depthsTok_hr, List.append_nil]
  | .blockquote ch, secs, idx, hdr => by
    rw [stripTok.eq_def]
    show secDepths (stripTokens sh ch secs false) = _
    rw [depths_stripTokens sh ch secs false, depthsTok_blockquote]
  | .list items, secs, idx, hdr => by
    rw [stripTok.eq_def]
    show secDepths (stripTokens sh items secs hdr) = _
    rw [depths_stripTokens sh items secs hdr, depthsTok_list]
  | .listItem ch, secs, idx, hdr => by
    rw [stripTok.eq_def]
    show secDepths (appendAt (stripTokens sh ch secs false) idx hdr "\n") = _
    rw [secDepths_appendAt, depths_stripTokens sh ch secs false,
      depthsTok_listItem]
  | .paragraph ch, secs, idx, hdr => by
    rw [stripTok.eq_def]
    show secDepths (stripTokens sh ch secs false) = _
    rw [depths_stripTokens sh ch secs false, depthsTok_paragraph]
  | .html text, secs, idx, hdr => by
    rw [stripTok.eq_def]
    show secDepths (appendAt secs idx hdr (jsTrim (sh text) ++ "\n\n")) = _
    rw [secDepths_appendAt, depthsTok_html, List.append_nil]
  | .text none raw, secs, idx, hdr => by
    rw [stripTok.eq_def]
    show secDepths (appendAt secs idx hdr raw) = _
    rw [secDepths_appendAt, depthsTok_textNone, List.append_nil]
  | .text (some ch) raw, secs, idx, hdr => by
    rw [stripTok.eq_def]
    show secDepths (stripTokens sh ch secs false) = _
    rw [depths_stripTokens sh ch secs false, depthsTok_textSome]
  | .def_, secs, idx, hdr => by
    rw [stripTok.eq_def]
    show secDepths secs = _
    rw [depthsTok_def, List.append_nil]
  | .escape, secs, idx, hdr => by
    rw [stripTok.eq_def]
    show secDepths secs = _
    rw [depthsTok_escape, List.append_nil]
  | .link ch, secs, idx, hdr => by
    rw [stripTok.eq_def]
    show secDepths (stripTokens sh ch secs false) = _
    rw [depths_stripTokens sh ch secs false, depthsTok_link]
  | .image title text, secs, idx, hdr => by
    rw [stripTok.eq_def]
    show secDepths (appendAt secs idx hdr _) = _
    rw [secDepths_appendAt, depthsTok_image, List.append_nil]
  | .strong ch, secs, idx, hdr => by
    rw [stripTok.eq_def]
    show secDepths (stripTokens sh ch secs false) = _
    rw [depths_stripTokens sh ch secs false, depthsTok_strong]
  | .em ch, secs, idx, hdr => by
    rw [stripTok.eq_def]
    show secDepths (stripTokens sh ch secs false) = _
    rw [depths_stripTokens sh ch secs false, depthsTok_em]
  | .codespan text, secs, idx, hdr => by
    rw [stripTok.eq_def]
    show secDepths (appendAt secs idx hdr text) = _
    rw [secDepths_appendAt, depthsTok_codespan, List.append_nil]
  | .br, secs, idx, hdr => by
    rw [stripTok.eq_def]
    show secDepths secs = _
    rw [depthsTok_br, List.append_nil]
  | .del ch, secs, idx, hdr => by
    rw [stripTok.eq_def]
    show secDepths (stripTokens sh ch secs false) = _
    rw [depths_stripTokens sh ch secs false, depthsTok_del]
termination_by t => (sizeOf t, 1)

theorem depths_stripTokens (sh : String → String) :
    ∀ (ts : List Tok) (secs : List MarkdownSections) (hdr : Bool),
      secDepths (stripTokens sh ts secs hdr) =
        secDepths secs ++ depthsToks ts
  | ts, secs, hdr => by
    rw [stripTokens, depths_stripToksGo sh ts secs (secs.length - 1) hdr]
termination_by ts => (sizeOf ts, 2)

theorem depths_stripCellsGo (sh : String → String) :
    ∀ (cs : List (List Tok)) (secs : List MarkdownSections) (idx : Nat)
      (hdr : Bool),
      secDepths (stripCellsGo sh cs secs idx hdr) =
        secDepths secs ++ depthsCells cs
  | [], secs, idx, hdr => by
    rw [stripCellsGo, depthsCells, List.append_nil]
  | c :: cs, secs, idx, hdr => by
    rw [stripCellsGo, depths_stripCellsGo sh cs _ idx hdr, secDepths_appendAt,
      depths_stripTokens sh c secs hdr, depthsCells, List.append_assoc]
termination_by cs => (sizeOf cs, 3)

theorem depths_stripRowsGo (sh : String → String) :
    ∀ (rs : List (List (List Tok))) (secs : List MarkdownSections)
      (idx : Nat) (hdr : Bool),
      secDepths (stripRowsGo sh rs secs idx hdr) =
        secDepths secs ++ depthsRows rs
  | [], secs, idx, hdr => by
    rw [stripRowsGo, depthsRows, List.append_nil]
  | r :: rs, secs, idx, hdr => by
    rw [stripRowsGo, depths_stripRowsGo sh rs _ idx hdr, secDepths_appendAt,
      depths_stripCellsGo sh r secs idx hdr, depthsRows, List.append_assoc]
termination_by rs => (sizeOf rs, 1)

end

/-! ### Properties of `trimChars` and `collapseNl` -/

theorem emitRun_eq (n : Nat) (r : List Char) :
    emitRun n r = List.replicate (if 3 ≤ n then 1 else n) '\n' ++ r := by
  rw [emitRun]
  by_cases h : 3 ≤ n
  · rw [if_pos h, if_pos h]; rfl
  · rw [if_neg h, if_neg h]

theorem collapseGo_ne_nil :
    ∀ (l : List Char) (n : Nat), n ≠ 0 ∨ l ≠ [] → collapseGo n l ≠ [] := by
  intro l
  induction l with
  | nil =>
    intro n h
    rcases h with h | h
    · show emitRun n [] ≠ []
      rw [emitRun_eq]
      by_cases h3 : 3 ≤ n
      · simp [h3]
      · simp [h3]
        omega
    · exact absurd rfl h
  | cons c cs ih =>
    intro n _
    by_cases hc : c = '\n'
    · subst hc
      show collapseGo (n + 1) cs ≠ []
      exact ih (n + 1) (Or.inl (by omega))
    · show collapseGo n (c :: cs) ≠ []
      have : collapseGo n (c :: cs) = emitRun n (c :: collapseGo 0 cs) := by
        rw [collapseGo.eq_def]
        cases cs <;> simp [hc]
      rw [this, emitRun_eq]
      simp

theorem collapseGo_cons_nl (n : Nat) (cs : List Char) :
    collapseGo n ('\n' :: cs) = collapseGo (n + 1) cs := rfl

theorem collapseGo_cons_other {c : Char} (hc : ¬ c = '\n') (n : Nat)
    (cs : List Char) :
    collapseGo n (c :: cs) = emitRun n (c :: collapseGo 0 cs) := by
  rw [collapseGo.eq_def]
  cases cs <;> simp [hc]

theorem collapseGo_head_pos :
    ∀ (l : List Char) (n : Nat), 1 ≤ n →
      (collapseGo n l).head? = some '\n' := by
  intro l
  induction l with
  | nil =>
    intro n hn
    show (emitRun n []).head? = some '\n'
    rw [emitRun_eq]
    by_cases h3 : 3 ≤ n
    · simp [h3]
    · rw [if_neg h3]
      match n, hn with
      | m + 1, _ => simp [List.replicate_succ]
  | cons c cs ih =>
    intro n hn
    by_cases hc : c = '\n'
    · subst hc
      rw [collapseGo_cons_nl]
      exact ih (n + 1) (by omega)
    · rw [collapseGo_cons_other hc, emitRun_eq]
      by_cases h3 : 3 ≤ n
      · simp [h3]
      · rw [if_neg h3]
        match n, hn with
        | m + 1, _ => simp [List.replicate_succ]

theorem collapseGo_head_zero (l : List Char) :
    (collapseGo 0 l).head? = l.head? := by
  cases l with
  | nil => rfl
  | cons c cs =>
    by_cases hc : c = '\n'
    · subst hc
      rw [collapseGo_cons_nl]
      exact collapseGo_head_pos cs 1 (by omega)
    · rw [collapseGo_cons_other hc, emitRun_eq]
      simp

theorem getLast?_cons_ne {α : Type _} (c : α) {X : List α} (h : X ≠ []) :
    (c :: X).getLast? = X.getLast? := by
  cases X with
  | nil => exact absurd rfl h
  | cons y ys => exact List.getLast?_cons_cons ..

theorem getLast?_append_ne {α : Type _} (A : List α) {B : List α}
    (h : B ≠ []) : (A ++ B).getLast? = B.getLast? := by
  induction A with
  | nil => rfl
  | cons a as ih =>
    rw [List.cons_append, getLast?_cons_ne a (by simp [h]), ih]

theorem collapseGo_last :
    ∀ (l : List Char) (n : Nat), l ≠ [] →
      (∀ c, l.getLast? = some c → jsWs c = false) →
      (collapseGo n l).getLast? = l.getLast? := by
  intro l
  induction l with
  | nil => intro n h _; exact absurd rfl h
  | cons c cs ih =>
    intro n _ hlast
    by_cases hcs : cs = []
    · subst hcs
      by_cases hc : c = '\n'
      · subst hc
        exact absurd (hlast '\n' rfl) (by simp [jsWs])
      · rw [collapseGo_cons_other hc,
          show collapseGo 0 ([] : List Char) = [] from rfl, emitRun_eq,
          getLast?_append_ne _ (by simp)]
    · have hlast' : ∀ d, cs.getLast? = some d → jsWs d = false := by
        intro d hd
        exact hlast d (by rw [getLast?_cons_ne c hcs]; exact hd)
      by_cases hc : c = '\n'
      · subst hc
        rw [collapseGo_cons_nl, ih (n + 1) hcs hlast',
          getLast?_cons_ne '\n' hcs]
      · have hne : collapseGo 0 cs ≠ [] := collapseGo_ne_nil cs 0 (Or.inr hcs)
        rw [collapseGo_cons_other hc, emitRun_eq,
          getLast?_append_ne _ (by simp), getLast?_cons_ne c hne,
          ih 0 hcs hlast', getLast?_cons_ne c hcs]

theorem subSeqAt_strip (m : Nat) (hm : m ≤ 2) {c : Char} (hc : ¬ c = '\n')
    (X : List Char) :
    subSeqAt nl3 (List.replicate m '\n' ++ c :: X) = subSeqAt nl3 X := by
  have hc' : ¬('\n' = c) := fun h => hc h.symm
  match m with
  | 0 => simp [subSeqAt, hasPrefixL, nl3, hc']
  | 1 => simp [subSeqAt, hasPrefixL, nl3, hc', List.replicate]
  | 2 => simp [subSeqAt, hasPrefixL, nl3, hc', List.replicate]
  | m + 3 => exact absurd hm (by omega)

theorem noTriple_collapseGo :
    ∀ (l : List Char) (n : Nat), subSeqAt nl3 (collapseGo n l) = false := by
  intro l
  induction l with
  | nil =>
    intro n
    show subSeqAt nl3 (emitRun n []) = false
    rw [emitRun_eq]
    by_cases h3 : 3 ≤ n
    · rw [if_pos h3]; decide
    · rw [if_neg h3]
      match n, h3 with
      | 0, _ => decide
      | 1, _ => decide
      | 2, _ => decide
      | m + 3, h3 => exact absurd (by omega) h3
  | cons c cs ih =>
    intro n
    by_cases hc : c = '\n'
    · subst hc
      rw [collapseGo_cons_nl]
      exact ih (n + 1)
    · rw [collapseGo_cons_other hc, emitRun_eq,
        subSeqAt_strip _ (by by_cases h3 : 3 ≤ n <;> simp [h3] <;> omega) hc]
      exact ih 0

theorem noTriple_collapseGo_snoc :
    ∀ (l : List Char) (n : Nat), l ≠ [] →
      (∀ c, l.getLast? = some c → ¬ c = '\n') →
      subSeqAt nl3 (collapseGo n l ++ ['\n']) = false := by
  intro l
  induction l with
  | nil => intro n h _; exact absurd rfl h
  | cons c cs ih =>
    intro n _ hlast
    by_cases hcs : cs = []
    · subst hcs
      by_cases hc : c = '\n'
      · subst hc
        exact absurd rfl (hlast '\n' rfl)
      · rw [collapseGo_cons_other hc,
          show collapseGo 0 ([] : List Char) = [] from rfl, emitRun_eq,
          List.append_assoc]
        rw [show ([c] ++ ['\n'] : List Char) = c :: ['\n'] from rfl,
          subSeqAt_strip _ (by by_cases h3 : 3 ≤ n <;> simp [h3] <;> omega) hc]
        decide
    · have hlast' : ∀ d, cs.getLast? = some d → ¬ d = '\n' := by
        intro d hd
        exact hlast d (by rw [getLast?_cons_ne c hcs]; exact hd)
      by_cases hc : c = '\n'
      · subst hc
        rw [collapseGo_cons_nl]
        exact ih (n + 1) hcs hlast'
      · rw [collapseGo_cons_other hc, emitRun_eq, List.append_assoc,
          List.cons_append,
          subSeqAt_strip _ (by by_cases h3 : 3 ≤ n <;> simp [h3] <;> omega) hc]
        exact ih 0 hcs hlast'

theorem dropWhile_head_not (p : α → Bool) :
    ∀ (l : List α) (c : α), (l.dropWhile p).head? = some c → p c = false := by
  intro l
  induction l with
  | nil => intro c h; simp [List.dropWhile] at h
  | cons x xs ih =>
    intro c h
    by_cases hx : p x
    · rw [List.dropWhile_cons_of_pos hx] at h
      exact ih c h
    · rw [List.dropWhile_cons_of_neg hx] at h
      simp only [List.head?_cons, Option.some.injEq] at h
      subst h
      simpa using hx

theorem dropWhile_getLast_of_ne (p : α → Bool) :
    ∀ (l : List α), l.dropWhile p ≠ [] →
      (l.dropWhile p).getLast? = l.getLast? := by
  intro l
  induction l with
  | nil => intro h; exact absurd rfl h
  | cons x xs ih =>
    intro h
    by_cases hx : p x
    · rw [List.dropWhile_cons_of_pos hx] at h ⊢
      have hxs : xs ≠ [] := by
        intro he
        rw [he] at h
        exact h rfl
      rw [ih h, getLast?_cons_ne x hxs]
    · rw [List.dropWhile_cons_of_neg hx]

theorem dropWhile_eq_self_of_head (p : α → Bool) :
    ∀ (l : List α), (∀ c, l.head? = some c → p c = false) →
      l.dropWhile p = l := by
  intro l h
  cases l with
  | nil => rfl
  | cons x xs =>
    rw [List.dropWhile_cons_of_neg]
    rw [h x rfl]
    simp

theorem trim_last_not_ws (l : List Char) (c : Char)
    (h : (trimChars l).getLast? = some c) : jsWs c = false := by
  rw [trimChars, List.getLast?_reverse] at h
  exact dropWhile_head_not jsWs _ c h

theorem trim_head_not_ws (l : List Char) (c : Char)
    (h : (trimChars l).head? = some c) : jsWs c = false := by
  rw [trimChars, List.head?_reverse] at h
  have hne : (l.dropWhile jsWs).reverse.dropWhile jsWs ≠ [] := by
    intro he
    rw [he] at h
    exact absurd h (by simp)
  rw [dropWhile_getLast_of_ne jsWs _ hne, List.getLast?_reverse] at h
  exact dropWhile_head_not jsWs _ c h

theorem trim_of_clean (l : List Char)
    (hh : ∀ c, l.head? = some c → jsWs c = false)
    (hl : ∀ c, l.getLast? = some c → jsWs c = false) :
    trimChars l = l := by
  rw [trimChars, dropWhile_eq_self_of_head jsWs l hh,
    dropWhile_eq_self_of_head jsWs l.reverse
      (fun c hc => hl c (by rw [← List.head?_reverse]; exact hc)),
    List.reverse_reverse]

theorem collapseNl_nil : collapseNl [] = [] := rfl

theorem trim_collapse_trim (x : List Char) :
    trimChars (collapseNl (trimChars x)) = collapseNl (trimChars x) := by
  by_cases hm : trimChars x = []
  · rw [hm, collapseNl_nil]
    rfl
  · apply trim_of_clean
    · intro c hc
      rw [collapseNl, collapseGo_head_zero] at hc
      exact trim_head_not_ws x c hc
    · intro c hc
      rw [collapseNl, collapseGo_last (trimChars x) 0 hm
        (fun d hd => trim_last_not_ws x d hd)] at hc
      exact trim_last_not_ws x c hc

theorem noTriple_collapse (x : List Char) :
    subSeqAt nl3 (collapseNl x) = false :=
  noTriple_collapseGo x 0

theorem strip_post (j : List Char) :
    (collapseNl (trimChars j) ++ ['\n']).getLast? = some '\n' ∧
    subSeqAt nl3 (collapseNl (trimChars j) ++ ['\n']) = false := by
  constructor
  · rw [getLast?_append_ne _ (by simp)]
    rfl
  · by_cases hm : trimChars j = []
    · rw [hm, collapseNl_nil]
      decide
    · exact noTriple_collapseGo_snoc (trimChars j) 0 hm
        (fun c hc he => by
          have := trim_last_not_ws j c hc
          rw [he] at this
          simp [jsWs] at this)

/-! ### RenderOptions and the sanitizer allow-lists of `render` -/

/-- `sanitize-html`'s `AllowedAttribute`: a plain attribute name or a
name constrained to a list of values. -/
inductive AllowedAttribute where
  | plain (attr : String)
  | withValues (attr : String) (values : List String)
deriving DecidableEq, Repr

/-- The `RenderOptions` interface; `none` models an absent (undefined)
property.  The custom `renderer` instance is opaque (only its presence
matters to the embedded fragments). -/
structure RenderOptions where
  baseUrl : Option String := none
  mediaBaseUrl : Option String := none
  inline : Option Bool := none
  allowIframes : Option Bool := none
  allowMath : Option Bool := none
  disableHtmlSanitization : Option Bool := none
  renderer : Option Unit := none
  allowedClasses : Option (List (String × List String)) := none
  allowedTags : Option (List String) := none
  allowedAttributes : Option (List (String × List AllowedAttribute)) := none
  breaks : Option Bool := none
  noLinks : Option Bool := none
  youtubeHandling : Option YoutubeHandling := none
  githubSlugger : Option Bool := none
  mermaid : Option Bool := none
  alerts : Option Bool := none
  svgCheckboxes : Option Bool := none
deriving DecidableEq, Repr

/-- JS truthiness of an optional boolean option. -/
def jsBool (o : Option Bool) : Bool := o.getD false

/-- The value of the caller's `opts` object after `render` returns: the
single statement `opts.mediaBaseUrl ??= opts.baseUrl` is the only write
`render` performs on it. -/
def renderOptsAfter (opts : RenderOptions) : RenderOptions :=
  { opts with
    mediaBaseUrl :=
      match opts.mediaBaseUrl with
      | some s => some s
      | none => opts.baseUrl }

/-- `mergeAttributes(defaults, customs)`: start from a copy of the
defaults and, for each tag of `customs`, append the custom attributes to
the (possibly empty) existing list. -/
def mergeAttributes
    (defaults customs : List (String × List AllowedAttribute)) :
    List (String × List AllowedAttribute) :=
  customs.foldl
    (fun merged kv =>
      jsSetKey merged kv.1 ((jsLookup merged kv.1).getD [] ++ kv.2))
    defaults

/-- `defaultAllowedTags` of `render`: the external
`sanitizeHtml.defaults.allowedTags` (a parameter here) extended with the
fixed additions, plus `iframe` and the MathML family when enabled. -/
def defaultAllowedTags (sanitizeDefaultTags : List String)
    (allowIframes allowMath : Bool) : List String :=
  (sanitizeDefaultTags ++
    ["img", "video", "svg", "path", "circle", "figure", "figcaption",
     "del", "details", "summary", "input"]) ++
  (if allowIframes then ["iframe"] else []) ++
  (if allowMath then
    ["math", "maction", "annotation", "annotation-xml", "menclose",
     "merror", "mfenced", "mfrac", "mi", "mmultiscripts", "mn", "mo",
     "mover", "mpadded", "mphantom", "mprescripts", "mroot", "mrow", "ms",
     "semantics", "mspace", "msqrt", "mstyle", "msub", "msup", "msubsup",
     "mtable", "mtd", "mtext", "mtr"]
   else [])

/-- `defaultAllowedClasses` of `render`.  `katexClasses` is the
`KATEX_CLASSES` constant from `style.ts` (not part of `src/`), used only
when math is enabled. -/
def defaultAllowedClasses (katexClasses : List String) (allowMath : Bool) :
    List (String × List String) :=
  [("div",
    ["highlight", "highlight-source-*", "notranslate", "markdown-alert",
     "markdown-alert-*", "markdown-code-title", "mermaid-code",
     "mermaid-container"]),
   ("span",
    ["token", "keyword", "operator", "number", "boolean", "function",
     "string", "comment", "class-name", "regex", "regex-delimiter", "tag",
     "attr-name", "punctuation", "script-punctuation", "script",
     "plain-text", "property", "prefix", "line", "deleted", "inserted",
     "key", "atrule"] ++ (if allowMath then katexClasses else [])),
   ("a", ["anchor"]),
   ("p", ["markdown-alert-title"]),
   ("svg", ["octicon", "octicon-alert", "octicon-link"]),
   ("h2", ["sr-only"]),
   ("section", ["footnotes"])]

/-- `defaultAllowedAttributes` of `render`: an object literal spreading
the external `sanitizeHtml.defaults.allowedAttributes` (a parameter)
under the fixed per-tag lists. -/
def defaultAllowedAttributes
    (sanitizeDefaultAttributes : List (String × List AllowedAttribute))
    (allowMath : Bool) : List (String × List AllowedAttribute) :=
  spreadMerge sanitizeDefaultAttributes
    [("img",
      ["src", "alt", "height", "width", "align", "title"].map .plain),
     ("video",
      ["src", "alt", "height", "width", "autoplay", "muted", "loop",
       "playsinline", "poster", "controls", "title"].map .plain),
     ("a",
      ["id", "aria-hidden", "href", "tabindex", "rel", "target", "title",
       "data-footnote-ref", "data-footnote-backref", "aria-label",
       "aria-describedby"].map .plain),
     ("svg",
      ["viewBox", "width", "height", "aria-hidden", "background"].map .plain),
     ("path", ["fill-rule", "d"].map .plain),
     ("circle",
      ["cx", "cy", "r", "stroke", "stroke-width", "fill", "alpha"].map .plain),
     ("span",
      if allowMath then ["aria-hidden", "style"].map .plain else []),
     ("h1", ["id"].map .plain),
     ("h2", ["id"].map .plain),
     ("h3", ["id"].map .plain),
     ("h4", ["id"].map .plain),
     ("h5", ["id"].map .plain),
     ("h6", ["id"].map .plain),
     ("li", ["id"].map .plain),
     ("td", ["colspan", "rowspan", "align", "width"].map .plain),
     ("iframe", ["src", "width", "height"].map .plain),
     ("math", ["xmlns"].map .plain),
     ("annotation", ["encoding"].map .plain),
     ("details", ["open"].map .plain),
     ("section", ["data-footnotes"].map .plain),
     ("input",
      [.plain "checked", .plain "disabled",
       .withValues "type" ["checkbox"]])]

/-- The `allowedTags` value `render` passes to the sanitizer:
`[...defaultAllowedTags, ...(opts.allowedTags ?? [])]`. -/
def renderAllowedTags (sanitizeDefaultTags : List String)
    (opts : RenderOptions) : List String :=
  defaultAllowedTags sanitizeDefaultTags (jsBool opts.allowIframes)
    (jsBool opts.allowMath) ++ opts.allowedTags.getD []

/-- The `allowedAttributes` value `render` passes to the sanitizer. -/
def renderAllowedAttributes
    (sanitizeDefaultAttributes : List (String × List AllowedAttribute))
    (opts : RenderOptions) : List (String × List AllowedAttribute) :=
  mergeAttributes
    (defaultAllowedAttributes sanitizeDefaultAttributes
      (jsBool opts.allowMath))
    (opts.allowedAttributes.getD [])

/-- The `allowedClasses` value `render` passes to the sanitizer:
`{ ...defaultAllowedClasses, ...opts.allowedClasses }`. -/
def renderAllowedClasses (katexClasses : List String)
    (opts : RenderOptions) : List (String × List String) :=
  spreadMerge (defaultAllowedClasses katexClasses (jsBool opts.allowMath))
    (opts.allowedClasses.getD [])

/-! ### Lookup lemmas for the JS-object model -/

theorem jsLookup_nil {α : Type _} (k : String) :
    jsLookup ([] : List (String × α)) k = none := rfl

theorem jsLookup_cons_self {α : Type _} {kv : String × α}
    {rest : List (String × α)} {k : String} (h : kv.1 = k) :
    jsLookup (kv :: rest) k = some kv.2 := by
  rw [jsLookup, List.find?_cons_of_pos _ (by simp [h])]
  rfl

theorem jsLookup_cons_ne {α : Type _} {kv : String × α}
    {rest : List (String × α)} {k : String} (h : ¬ kv.1 = k) :
    jsLookup (kv :: rest) k = jsLookup rest k := by
  rw [jsLookup, List.find?_cons_of_neg _ (by simp [h])]
  rfl

theorem jsLookup_jsSetKey_self {α : Type _} :
    ∀ (m : List (String × α)) (k : String) (v : α),
      jsLookup (jsSetKey m k v) k = some v := by
  intro m k v
  rw [jsSetKey]
  by_cases hex : m.any (fun kv => kv.1 = k)
  · rw [if_pos hex]
    induction m with
    | nil => simp at hex
    | cons kv rest ih =>
      by_cases hk : kv.1 = k
      · rw [List.map_cons, if_pos hk]
        exact jsLookup_cons_self rfl
      · have hex' : rest.any (fun kv => kv.1 = k) := by
          simp only [List.any_cons, Bool.or_eq_true, decide_eq_true_eq] at hex
          rcases hex with h | h
          · exact absurd h hk
          · exact h
        rw [List.map_cons, if_neg hk, jsLookup_cons_ne hk]
        exact ih hex'
  · rw [if_neg hex]
    induction m with
    | nil => exact jsLookup_cons_self rfl
    | cons kv rest ih =>
      have hk : ¬ kv.1 = k := by
        intro h
        exact hex (by simp [List.any_cons, h])
      have hex' : ¬ rest.any (fun kv => kv.1 = k) := by
        intro h
        exact hex (by simp [List.any_cons, h])
      rw [List.cons_append, jsLookup_cons_ne hk]
      exact ih hex'

theorem jsLookup_jsSetKey_other {α : Type _} :
    ∀ (m : List (String × α)) {k k' : String}, ¬ k' = k → ∀ (v : α),
      jsLookup (jsSetKey m k v) k' = jsLookup m k' := by
  intro m k k' hk v
  rw [jsSetKey]
  by_cases hex : m.any (fun kv => kv.1 = k)
  · rw [if_pos hex]
    clear hex
    induction m with
    | nil => rfl
    | cons kv rest ih =>
      rw [List.map_cons]
      by_cases h1 : kv.1 = k
      · rw [if_pos h1,
          jsLookup_cons_ne (show ¬ (k, v).1 = k' from fun h => hk h.symm),
          jsLookup_cons_ne (by rw [h1]; exact fun h => hk h.symm), ih]
      · by_cases h2 : kv.1 = k'
        · rw [if_neg h1, jsLookup_cons_self h2, jsLookup_cons_self h2]
        · rw [if_neg h1, jsLookup_cons_ne h2, jsLookup_cons_ne h2, ih]
  · rw [if_neg hex]
    clear hex
    induction m with
    | nil =>
      rw [List.nil_append, jsLookup_cons_ne (fun h => hk h.symm)]
    | cons kv rest ih =>
      rw [List.cons_append]
      by_cases h2 : kv.1 = k'
      · rw [jsLookup_cons_self h2, jsLookup_cons_self h2]
      · rw [jsLookup_cons_ne h2, jsLookup_cons_ne h2, ih]

theorem foldl_mergeStep_mono {tag : String} {v : AllowedAttribute} :
    ∀ (customs : List (String × List AllowedAttribute))
      (acc : List (String × List AllowedAttribute)),
      v ∈ (jsLookup acc tag).getD [] →
      v ∈ (jsLookup
        (customs.foldl
          (fun merged kv =>
            jsSetKey merged kv.1 ((jsLookup merged kv.1).getD [] ++ kv.2))
          acc) tag).getD [] := by
  intro customs
  induction customs with
  | nil => intro acc h; exact h
  | cons kv rest ih =>
    intro acc h
    rw [List.foldl_cons]
    apply ih
    by_cases hk : tag = kv.1
    · subst hk
      rw [jsLookup_jsSetKey_self]
      simp only [Option.getD_some]
      exact List.mem_append_left _ h
    · rw [jsLookup_jsSetKey_other _ hk]
      exact h

/-- Defaults are never dropped by `mergeAttributes`. -/
theorem mergeAttributes_preserves
    (defaults customs : List (String × List AllowedAttribute))
    (tag : String) (v : AllowedAttribute)
    (h : v ∈ (jsLookup defaults tag).getD []) :
    v ∈ (jsLookup (mergeAttributes defaults customs) tag).getD [] :=
  foldl_mergeStep_mono customs defaults h

theorem spreadMerge_cons {α : Type _} (a : List (String × α))
    (kv : String × α) (rest : List (String × α)) :
    spreadMerge a (kv :: rest) = spreadMerge (jsSetKey a kv.1 kv.2) rest :=
  rfl

theorem jsLookup_spreadMerge_not_mem {α : Type _} {k : String} :
    ∀ (b a : List (String × α)), (∀ kv ∈ b, ¬ kv.1 = k) →
      jsLookup (spreadMerge a b) k = jsLookup a k := by
  intro b
  induction b with
  | nil => intro a _; rfl
  | cons kv rest ih =>
    intro a hb
    rw [spreadMerge_cons,
      ih (jsSetKey a kv.1 kv.2)
        (fun kv' h => hb kv' (List.mem_cons_of_mem _ h)),
      jsLookup_jsSetKey_other _
        (fun he => hb kv (List.mem_cons_self kv rest) he.symm)]

/-- Keys supplied by the caller replace the defaults under object spread
(for well-formed JS objects, whose keys are distinct). -/
theorem jsLookup_spreadMerge_mem {α : Type _} {k : String} {v : α} :
    ∀ (b a : List (String × α)), (b.map Prod.fst).Nodup →
      jsLookup b k = some v → jsLookup (spreadMerge a b) k = some v := by
  intro b
  induction b with
  | nil => intro a _ h; rw [jsLookup_nil] at h; exact absurd h (by simp)
  | cons kv rest ih =>
    intro a hnd hlk
    have hnd' : (rest.map Prod.fst).Nodup := by
      simp only [List.map_cons, List.nodup_cons] at hnd
      exact hnd.2
    rw [spreadMerge_cons]
    by_cases hk : kv.1 = k
    · have hv : v = kv.2 := by
        rw [jsLookup_cons_self hk] at hlk
        exact (Option.some_inj.mp hlk).symm
      subst hv
      have hnm : ∀ kv' ∈ rest, ¬ kv'.1 = k := by
        intro kv' hmem he
        simp only [List.map_cons, List.nodup_cons] at hnd
        exact hnd.1 (by
          rw [hk, ← he]
          exact List.mem_map_of_mem Prod.fst hmem)
      rw [jsLookup_spreadMerge_not_mem rest _ hnm, ← hk,
        jsLookup_jsSetKey_self]
    · have hlk' : jsLookup rest k = some v := by
        rw [jsLookup_cons_ne hk] at hlk
        exact hlk
      exact ih _ hnd' hlk'

/-! ### Support lemmas for alert detection -/

theorem getLast?_cons_ne_none {α : Type _} (x : α) (xs : List α) :
    (x :: xs).getLast? ≠ none := by
  induction xs generalizing x with
  | nil => simp [List.getLast?]
  | cons y ys ih => rw [List.getLast?_cons_cons]; exact ih y

theorem foldl_overwrite (p : String → Bool) :
    ∀ (L : List String) (init : Option String),
      L.foldl (fun r a => if p a then some a else r) init =
        match (L.filter p).getLast? with
        | some x => some x
        | none => init := by
  intro L
  induction L with
  | nil => intro init; rfl
  | cons a rest ih =>
    intro init
    rw [List.foldl_cons, ih]
    by_cases hp : p a
    · rw [List.filter_cons_of_pos hp]
      cases hq : (rest.filter p).getLast? with
      | none =>
        have hfe : rest.filter p = [] := by
          cases hF : rest.filter p with
          | nil => rfl
          | cons x xs =>
            rw [hF] at hq
            exact absurd hq (getLast?_cons_ne_none x xs)
        rw [hfe]
        simp [hp]
      | some x =>
        have hne : rest.filter p ≠ [] := by
          intro he
          rw [he] at hq
          simp at hq
        rw [getLast?_cons_ne a hne, hq]
    · rw [List.filter_cons_of_neg hp, if_neg hp]

theorem idxOf_spec (pat : List Char) :
    ∀ (l : List Char) (i : Nat), idxOf pat l = some i →
      hasPrefixL pat (l.drop i) = true ∧
      ∀ k, k < i → hasPrefixL pat (l.drop k) = false := by
  intro l
  induction l with
  | nil =>
    intro i h
    rw [idxOf] at h
    by_cases hp : hasPrefixL pat []
    · rw [if_pos hp] at h
      have : i = 0 := (Option.some_inj.mp h).symm
      subst this
      exact ⟨hp, fun k hk => absurd hk (by omega)⟩
    · rw [if_neg hp] at h
      exact absurd h (by simp)
  | cons c cs ih =>
    intro i h
    rw [idxOf] at h
    by_cases hp : hasPrefixL pat (c :: cs)
    · rw [if_pos hp] at h
      have : i = 0 := (Option.some_inj.mp h).symm
      subst this
      exact ⟨hp, fun k hk => absurd hk (by omega)⟩
    · rw [if_neg hp] at h
      cases hj : idxOf pat cs with
      | none => rw [hj] at h; exact absurd h (by simp)
      | some j =>
        rw [hj] at h
        simp only [Option.map_some', Option.some.injEq] at h
        subst h
        obtain ⟨h1, h2⟩ := ih j hj
        refine ⟨h1, ?_⟩
        intro k hk
        cases k with
        | zero => exact (Bool.not_eq_true _).mp hp
        | succ k' =>
          rw [List.drop_succ_cons]
          exact h2 k' (by omega)

/-! ## Claim theorems -/

/-- C1: for every token tree produced by the front end,
`stripSplitBySections` returns exactly (number of heading tokens
encountered) + 1 sections, in document order: the first section has depth
0 and the depth sequence of the following sections is exactly the
sequence of heading levels in traversal (document) order. -/
theorem stripSplitBySections_count_depths (sh : String → String)
    (tokens : List Tok) :
    (stripSplitBySections sh tokens).length = headingCount tokens + 1 ∧
    secDepths (stripSplitBySections sh tokens) = 0 :: depthsToks tokens := by
  have h := depths_stripTokens sh tokens [⟨"", 0, ""⟩] false
  rw [stripSplitBySections]
  constructor
  · have hlen := congrArg List.length h
    simp only [secDepths, List.length_map, List.length_append,
      List.length_cons, List.length_nil] at hlen
    rw [headingCount]
    omega
  · rw [h]
    rfl

/-- A token list on which the claimed section invariant fails: text after
the heading ends with a run of four newlines and is never finalized. -/
def c2toks : List Tok :=
  [.paragraph [.text none "a"], .space "\n\n\n",
   .paragraph [.text none "b"], .heading 1 [.text none "T"],
   .paragraph [.text none "tail"], .space "\n\n\n\n"]

/-- C2 counterexample: the returned sections are
`[⟨"", 0, "a\nb"⟩, ⟨"T", 1, "tail\n\n\n\n"⟩]` — the finalized first
section collapsed `"a\n\n\nb"` to a single newline (not to one blank
line), and the last section is neither trimmed nor free of 3+ newline
runs. -/
theorem sections_trimmed_counterexample :
    stripSplitBySections (fun s => s) c2toks =
      [⟨"", 0, "a\nb"⟩, ⟨"T", 1, "tail\n\n\n\n"⟩] ∧
    ¬ (∀ sec ∈ stripSplitBySections (fun s => s) c2toks,
        jsTrim sec.header = sec.header ∧ jsTrim sec.content = sec.content ∧
        subSeqAt nl3 sec.header.data = false ∧
        subSeqAt nl3 sec.content.data = false) := by
  have hev : stripSplitBySections (fun s => s) c2toks =
      [⟨"", 0, "a\nb"⟩, ⟨"T", 1, "tail\n\n\n\n"⟩] := by
    simp [c2toks, stripSplitBySections, stripTokens, stripToksGo,
      stripTok.eq_def, appendAt, modifyIdx, finalizeSection, jsTrim,
      collapseNlStr]
    decide
  refine ⟨hev, ?_⟩
  intro hall
  have := hall ⟨"T", 1, "tail\n\n\n\n"⟩ (by rw [hev]; simp)
  revert this
  decide

/-- C2 amended: the trim-and-collapse guarantee holds exactly at
finalization time (when a heading token finalizes the current section):
`finalizeSection` trims `header` and `content` and collapses every run of
3+ newlines to a single newline (not to a blank line), leaving `depth`
unchanged.  The final section is returned without this treatment, and
text appended through a stale index after finalization is also
untreated. -/
theorem finalizeSection_trim_collapse (sec : MarkdownSections) :
    jsTrim (finalizeSection sec).header = (finalizeSection sec).header ∧
    jsTrim (finalizeSection sec).content = (finalizeSection sec).content ∧
    subSeqAt nl3 (finalizeSection sec).header.data = false ∧
    subSeqAt nl3 (finalizeSection sec).content.data = false ∧
    (finalizeSection sec).header = collapseNlStr (jsTrim sec.header) ∧
    (finalizeSection sec).content = collapseNlStr (jsTrim sec.content) ∧
    (finalizeSection sec).depth = sec.depth := by
  refine ⟨?_, ?_, ?_, ?_, rfl, rfl, rfl⟩
  · exact congrArg String.mk (trim_collapse_trim sec.header.data)
  · exact congrArg String.mk (trim_collapse_trim sec.content.data)
  · exact noTriple_collapse (trimChars sec.header.data)
  · exact noTriple_collapse (trimChars sec.content.data)

/-- The options object of the C3 counterexample: the caller asks for one
additional `div` class. -/
def c3opts : RenderOptions := { allowedClasses := some [("div", ["custom"])] }

/-- C3 counterexample: the default `div` class list contains
`"highlight"`, but with caller-supplied `allowedClasses` for `div` the
class list `render` hands to the sanitizer is exactly the caller's list —
the defaults for that tag are replaced, not merged. -/
theorem allowedClasses_replace_counterexample :
    "highlight" ∈ (jsLookup (defaultAllowedClasses [] false) "div").getD [] ∧
    jsLookup (renderAllowedClasses [] c3opts) "div" = some ["custom"] ∧
    "highlight" ∉ (jsLookup (renderAllowedClasses [] c3opts) "div").getD [] := by
  decide

/-- C3 amended: caller-supplied allowed tags and per-tag attributes are
merged additively into the defaults (no default tag or attribute is ever
dropped), but per-tag allowed classes are combined by object spread: for
a tag the caller mentions, the caller's class list replaces the default
list; tags the caller does not mention keep their default lists. -/
theorem allowLists_merge_spec :
    (∀ (sdt : List String) (opts : RenderOptions) (t : String),
      t ∈ defaultAllowedTags sdt (jsBool opts.allowIframes)
          (jsBool opts.allowMath) →
      t ∈ renderAllowedTags sdt opts) ∧
    (∀ (sda : List (String × List AllowedAttribute)) (opts : RenderOptions)
      (tag : String) (v : AllowedAttribute),
      v ∈ (jsLookup (defaultAllowedAttributes sda (jsBool opts.allowMath))
          tag).getD [] →
      v ∈ (jsLookup (renderAllowedAttributes sda opts) tag).getD []) ∧
    (∀ (kc : List String) (opts : RenderOptions) (tag : String)
      (cl : List String),
      ((opts.allowedClasses.getD []).map Prod.fst).Nodup →
      jsLookup (opts.allowedClasses.getD []) tag = some cl →
      jsLookup (renderAllowedClasses kc opts) tag = some cl) ∧
    (∀ (kc : List String) (opts : RenderOptions) (tag : String),
      (∀ kv ∈ opts.allowedClasses.getD [], ¬ kv.1 = tag) →
      jsLookup (renderAllowedClasses kc opts) tag =
        jsLookup (defaultAllowedClasses kc (jsBool opts.allowMath)) tag) := by
  refine ⟨?_, ?_, ?_, ?_⟩
  · intro sdt opts t ht
    rw [renderAllowedTags]
    exact List.mem_append_left _ ht
  · intro sda opts tag v hv
    exact mergeAttributes_preserves _ _ tag v hv
  · intro kc opts tag cl hnd hlk
    exact jsLookup_spreadMerge_mem _ _ hnd hlk
  · intro kc opts tag hnm
    exact jsLookup_spreadMerge_not_mem _ _ hnm

/-- Witness for the C3 amended theorem at concrete inputs. -/
theorem allowLists_merge_spec_witness :
    "img" ∈ renderAllowedTags [] c3opts ∧
    AllowedAttribute.plain "src" ∈
      (jsLookup (renderAllowedAttributes [] c3opts) "img").getD [] ∧
    jsLookup (renderAllowedClasses [] c3opts) "div" = some ["custom"] ∧
    jsLookup (renderAllowedClasses [] c3opts) "a" =
      jsLookup (defaultAllowedClasses [] false) "a" :=
  ⟨allowLists_merge_spec.1 [] c3opts "img" (by decide),
   allowLists_merge_spec.2.1 [] c3opts "img" (.plain "src") (by decide),
   allowLists_merge_spec.2.2.1 [] c3opts "div" ["custom"] (by decide)
     (by decide),
   allowLists_merge_spec.2.2.2 [] c3opts "a" (by decide)⟩

/-- C6 counterexample: calling `render` with options that set `baseUrl`
but not `mediaBaseUrl` leaves the caller's options object changed
(`opts.mediaBaseUrl ??= opts.baseUrl`). -/
def c6opts : RenderOptions := { baseUrl := some "https://example.com/" }

/-- C6 counterexample theorem: the options object after `render` differs
from the one supplied. -/
theorem renderOpts_mutation_counterexample :
    ¬ renderOptsAfter c6opts = c6opts := by decide

/-- C6 amended: `render` mutates the caller's options in exactly one way:
when `mediaBaseUrl` is unset it is assigned `baseUrl` (the `??=`
defaulting on entry); every other field is left unchanged, and when
`mediaBaseUrl` is already set the object keeps its value. -/
theorem renderOpts_mutation_spec (opts : RenderOptions) :
    { renderOptsAfter opts with mediaBaseUrl := opts.mediaBaseUrl } = opts ∧
    (renderOptsAfter opts).mediaBaseUrl =
      (match opts.mediaBaseUrl with
       | some s => some s
       | none => opts.baseUrl) ∧
    (renderOptsAfter opts).baseUrl = opts.baseUrl := by
  refine ⟨?_, rfl, rfl⟩
  cases opts
  rfl

/-- C5: the Youtube recognizer accepts the three documented URL shapes
and rejects the non-Youtube URL. -/
theorem isYoutubeVideo_examples :
    isYoutubeVideo "https://www.youtube.com/watch?v=VIDEOID1234" = true ∧
    isYoutubeVideo "https://youtu.be/VIDEOID1234" = true ∧
    isYoutubeVideo "youtube.com/embed/VIDEOID1234" = true ∧
    isYoutubeVideo "https://example.com/video.mp4" = false := by
  decide

theorem jsLookup_filter_ne {α : Type _} (attribs : List (String × α))
    (k : String) :
    jsLookup (attribs.filter (fun kv => !(kv.1 = k))) k = none := by
  induction attribs with
  | nil => rfl
  | cons kv rest ih =>
    by_cases hk : kv.1 = k
    · rw [List.filter_cons_of_neg (by simp [hk])]
      exact ih
    · rw [List.filter_cons_of_pos (by simp [hk]), jsLookup_cons_ne hk]
      exact ih

/-- C4: when URL resolution against the configured base fails, the link
rule emits the anchor with the original unresolved `href`, and the media
transform deletes the `src` attribute entirely. -/
theorem url_resolution_failure_fallback
    (resolveUrl : String → String → Option String) (b href : String)
    (title : Option String) (text : String) (tagName : String)
    (attribs : List (String × String)) (src : String)
    (hb : ¬ b = "") (hhash : hasPrefixL "#".data href.data = false)
    (hfail : resolveUrl href b = none)
    (hsrc : jsLookup attribs "src" = some src) (hsrcne : ¬ src = "")
    (hfail2 : resolveUrl src b = none) :
    linkRule resolveUrl false (some b) href title text =
      "<a href=\"" ++ href ++ "\"" ++ mkTitleAttr title ++
        " rel=\"noopener noreferrer\">" ++ text ++ "</a>" ∧
    jsLookup (transformMedia resolveUrl (some b) tagName attribs).2 "src" =
      none := by
  constructor
  · simp only [linkRule, hhash, Bool.false_eq_true, if_false, hb, hfail,
      Option.getD_none]
  · simp only [transformMedia, hsrc, hfail2]
    rw [if_neg (by simp [hb, hsrcne])]
    exact jsLookup_filter_ne attribs "src"

/-- Witness for C4 at concrete inputs (a resolver that always throws). -/
theorem url_resolution_failure_fallback_witness :
    linkRule (fun _ _ => none) false (some "base") "page/x" none "txt" =
      "<a href=\"page/x\" rel=\"noopener noreferrer\">txt</a>" ∧
    jsLookup
      (transformMedia (fun _ _ => none) (some "base") "img"
        [("src", "s"), ("alt", "a")]).2 "src" = none := by
  have h := url_resolution_failure_fallback (fun _ _ => none) "base" "page/x"
    none "txt" "img" [("src", "s"), ("alt", "a")] "s"
    (by decide) (by decide) rfl (by decide) (by decide) rfl
  exact ⟨h.1.trans (by decide), h.2⟩

/-- C8: for any image whose `src` is recognized as a Youtube video, in
`link` embed mode the image rule returns a plain anchor wrapping
`title || alt || "Youtube video"` and leaves the lite-embed sticky flag
unchanged — no iframe or lite embed is produced. -/
theorem imageRule_link_mode (contentTypeExt : String → String)
    (flag : Bool) (src : String) (title : Option String) (alt : String)
    (h : isYoutubeVideo src = true) :
    imageRule contentTypeExt .link flag src title alt =
      ("<a href=\"" ++ src ++ "\">" ++
        jsOrStr title (jsOrStr (some alt) "Youtube video") ++ "</a>",
       flag) := by
  simp only [imageRule, h, Bool.true_and,
    show (YoutubeHandling.link == YoutubeHandling.link) = true from rfl,
    if_true]

/-- Witness for C8 at the spec scenario
`![alt](https://youtu.be/dQw4w9WgXcQ)` with embed mode `link`. -/
theorem imageRule_link_mode_witness :
    isYoutubeVideo "https://youtu.be/dQw4w9WgXcQ" = true ∧
    (imageRule (fun _ => "") .link false "https://youtu.be/dQw4w9WgXcQ"
      none "alt").1 = "<a href=\"https://youtu.be/dQw4w9WgXcQ\">alt</a>" ∧
    containsSubstr
      (imageRule (fun _ => "") .link false "https://youtu.be/dQw4w9WgXcQ"
        none "alt").1 "<iframe" = false := by
  refine ⟨by decide, ?_, by decide⟩
  rw [imageRule_link_mode (fun _ => "") false "https://youtu.be/dQw4w9WgXcQ"
    none "alt" (by decide)]
  decide

/-- C7: `strip` always returns a string that ends with a newline and
contains no run of three or more consecutive newlines. -/
theorem strip_newline_properties (sh : String → String)
    (tokens : List Tok) :
    (strip sh tokens).data.getLast? = some '\n' ∧
    subSeqAt nl3 (strip sh tokens).data = false :=
  strip_post _

/-- The display-mode katex model of the C9 scenario: it throws on the
source `"a+b"` and typesets everything else. -/
def katDisplayC9 : String → Option String :=
  fun s => if s = "a+b" then none else some ("[D:" ++ s ++ "]")

/-- C9: a katex failure on one math span is non-fatal and leaves exactly
that span unreplaced.  First half: if every typesetting call fails, the
whole input is returned unchanged (every match kept verbatim, no
exception).  Second half: with two block spans where only the first
fails, the first is preserved and the second is still typeset. -/
theorem mathify_failure_isolation :
    (∀ markdown, mathify (fun _ => none) (fun _ => none) markdown =
      markdown) ∧
    mathify katDisplayC9 (fun _ => none) "$$ a+b $$ mid $$ c $$ tail" =
      "$$ a+b $$ mid [D:c] tail" :=
  ⟨mathify_all_fail, by decide⟩

/-- C10: (1) `detectAlert` returns the marker occurring latest in the
fixed list order among those present (case-insensitively) — the position
of markers inside the text is irrelevant; (2) with alerts disabled,
`Renderer.blockquote` emits the bold label followed by the text with the
slice `[i, i + marker.length)` removed, where `i` is the index returned
by `indexOf` on the lowercased text; (3) `idxOf` returns the first
occurrence. -/
theorem detectAlert_last_marker_and_splice :
    (∀ text : String,
      detectAlert text =
        (alerts.filter (fun a => containsSubstr (jsToLower text) a)).getLast?) ∧
    (∀ (superBlockquote : String → String) (text a : String),
      detectAlert text = some a →
      blockquoteRule superBlockquote false text =
        "<p><b>" ++ convertAlert a ++ ": </b></p>" ++
          jsTrim ⟨text.data.take
              ((idxOf a.data (jsToLower text).data).getD 0) ++
            text.data.drop
              ((idxOf a.data (jsToLower text).data).getD 0 + a.length)⟩ ++
          "</p>") ∧
    (∀ (pat l : List Char) (i : Nat), idxOf pat l = some i →
      hasPrefixL pat (l.drop i) = true ∧
      ∀ k, k < i → hasPrefixL pat (l.drop k) = false) := by
  refine ⟨?_, ?_, ?_⟩
  · intro text
    rw [detectAlert, foldl_overwrite]
    cases (alerts.filter
      (fun a => containsSubstr (jsToLower text) a)).getLast? <;> rfl
  · intro superBlockquote text a hda
    rw [blockquoteRule, hda]
    rfl
  · intro pat l i h
    exact idxOf_spec pat l i h

/-- Witness for C10: `[!WARNING]` appears before `[!note]` in the text,
yet detection returns the warning marker (later in the fixed list
order), and the degraded rendering splices out the first
case-insensitive occurrence of that marker. -/
theorem detectAlert_last_marker_and_splice_witness :
    detectAlert "x [!WARNING] y [!note] z" = some "[!warning]" ∧
    blockquoteRule (fun s => s) false "x [!WARNING] y [!note] z" =
      "<p><b>Warning: </b></p>x  y [!note] z</p>" :=
  ⟨(detectAlert_last_marker_and_splice.1 "x [!WARNING] y [!note] z").trans
    (by decide),
   (detectAlert_last_marker_and_splice.2.1 (fun s => s)
      "x [!WARNING] y [!note] z" "[!warning]" (by decide)).trans
    (by decide)⟩

end GfmSpec

